import Mathlib

set_option maxRecDepth 4000

/-!
Verification of the ABC tune parsing and query engine.

The parser (`ABCParser.parse_file`) splits a document on the MULTILINE regex
`^X:\s*\d+`, drops the text before the first boundary, and turns each block
into a record by searching the block for the first line matching each of the
MULTILINE regexes `^T:(.+)$`, `^R:(.+)$`, `^K:(.+)$`, `^C:(.+)$`, `^S:(.+)$`.
Strings are modelled as `List Char`; text handled by the program is ASCII, so
the Python whitespace and digit classes are modelled by their ASCII parts.
-/

/-- Python whitespace class: the characters matched by the regex class `\s`
and stripped by `str.strip()` on ASCII text. -/
def isPySpace (c : Char) : Bool :=
  c == ' ' || c == '\t' || c == '\n' || c == '\r' || c == '\x0b' || c == '\x0c'

/-- Python `str.strip()`: remove leading and trailing whitespace. -/
def strip (s : List Char) : List Char :=
  ((s.dropWhile isPySpace).reverse.dropWhile isPySpace).reverse

/-- Attempt to match the regex `X:\s*\d+` at the head of `s` (the `\s*` is
greedy and, since no whitespace character is a digit, the match length is
determined without backtracking).  `some l` is the length of the match. -/
def matchBoundaryAt : List Char → Option Nat
  | c :: d :: rest =>
    if c == 'X' && d == ':' then
      if ((rest.dropWhile isPySpace).takeWhile Char.isDigit).isEmpty then none
      else some (2 + (rest.takeWhile isPySpace).length
                   + ((rest.dropWhile isPySpace).takeWhile Char.isDigit).length)
    else none
  | _ => none

/-- Leftmost match of the MULTILINE regex `^X:\s*\d+` in `s`.  `lineStart`
says whether the current position is the start of a line (position 0, or the
previous character was a newline), which is where `^` matches.  Returns the
match's start position and length. -/
def findMatch : List Char → Bool → Option (Nat × Nat)
  | [], _ => none
  | c :: rest, lineStart =>
    match (if lineStart then matchBoundaryAt (c :: rest) else none) with
    | some l => some (0, l)
    | none => (findMatch rest (c == '\n')).map (fun q => (q.1 + 1, q.2))

/-- `re.split(r'^X:\s*\d+', content, flags=re.MULTILINE)`: cut the text at
every non-overlapping boundary match, the matched text itself being removed.
Scanning resumes right after a match, which is never a line start because a
match ends in a digit.  The structurally decreasing `fuel` argument is given
as `content.length` by `tuneBlocks`, which is always enough because every
match consumes at least three characters. -/
def splitXF : Nat → List Char → Bool → List (List Char)
  | 0, s, _ => [s]
  | fuel + 1, s, lineStart =>
    match findMatch s lineStart with
    | none => [s]
    | some (p, l) => s.take p :: splitXF fuel (s.drop (p + l)) false

/-- The segments produced by splitting the document at tune-block boundaries.
Segment 0 is the front matter before the first boundary; `parse_file` drops it. -/
def tuneBlocks (content : List Char) : List (List Char) :=
  splitXF content.length content true

/-- Number of `^X:\s*\d+` boundary matches in the document, counted by the
same left-to-right scan that the split performs.  Each match begins at the
start of a distinct line, so this is the number of boundary lines. -/
def countXF : Nat → List Char → Bool → Nat
  | 0, _, _ => 0
  | fuel + 1, s, lineStart =>
    match findMatch s lineStart with
    | none => 0
    | some (p, l) => countXF fuel (s.drop (p + l)) false + 1

/-- Number of boundary lines in the document. -/
def countBoundaries (content : List Char) : Nat :=
  countXF content.length content true

/-- Split a text into its lines at newline characters (the newline is not kept).
The MULTILINE anchors `^` and `$` of the header regexes delimit exactly these
lines. -/
def splitLines : List Char → List (List Char)
  | [] => [[]]
  | c :: rest =>
    if c == '\n' then [] :: splitLines rest
    else
      match splitLines rest with
      | [] => [[c]]
      | l :: ls => (c :: l) :: ls

/-- Match one line against `tag:(.+)$`: the line must begin with the tag letter
and a colon and have a nonempty remainder; the greedy `(.+)` group is the whole
remainder of the line. -/
def tagValue (tag : Char) : List Char → Option (List Char)
  | c :: d :: rest =>
    if c == tag && d == ':' && !rest.isEmpty then some rest else none
  | _ => none

/-- First line of the list matching the tag, as found by `re.search` with a
MULTILINE `^tag:(.+)$` pattern: earlier lines win. -/
def firstTag (tag : Char) : List (List Char) → Option (List Char)
  | [] => none
  | l :: ls =>
    match tagValue tag l with
    | some v => some v
    | none => firstTag tag ls

/-- `self.tag_pattern.search(block)` for one of the header patterns
`^T:(.+)$`, `^R:(.+)$`, `^K:(.+)$`, `^C:(.+)$`, `^S:(.+)$` (MULTILINE):
the captured group of the first matching line of the block. -/
def findTag (tag : Char) (block : List Char) : Option (List Char) :=
  firstTag tag (splitLines block)

/-- One tune dictionary as built by `ABCParser.parse_file`. -/
structure Tune where
  title : List Char
  rhythm_type : List Char
  key : List Char
  composer : List Char
  source : Option (List Char)
  book_number : Int
  file_name : List Char
  content : List Char
  deriving DecidableEq

/-- The sentinel string substituted for a missing `R:`, `K:` or `C:` header. -/
def unknownStr : List Char := "Unknown".data

/-- The per-block body of `ABCParser.parse_file`: a block with no `T:` match is
skipped (`if not title: continue`); otherwise each field is the stripped first
match of its tag, `R:`/`K:`/`C:` defaulting to `"Unknown"`, `S:` to `None`,
and `content` is the stripped block text. -/
def parseBlock (block : List Char) (book_number : Int) (fname : List Char) :
    Option Tune :=
  match findTag 'T' block with
  | none => none
  | some tv =>
    some ⟨strip tv,
      (match findTag 'R' block with | some v => strip v | none => unknownStr),
      (match findTag 'K' block with | some v => strip v | none => unknownStr),
      (match findTag 'C' block with | some v => strip v | none => unknownStr),
      (findTag 'S' block).map strip,
      book_number, fname, strip block⟩

/-- `ABCParser.parse_file` once the file content is in hand: split the text at
tune boundaries, drop the front matter (`[1:]`), and collect the records of the
blocks that have a title. -/
def parse_file (content : List Char) (book_number : Int) (fname : List Char) :
    List Tune :=
  ((tuneBlocks content).drop 1).filterMap (fun b => parseBlock b book_number fname)

/-- ASCII lowering, the effect of `re.IGNORECASE` / `case=False` on ASCII text. -/
def toLowerAscii (c : Char) : Char :=
  if 65 ≤ c.toNat && c.toNat ≤ 90 then Char.ofNat (c.toNat + 32) else c

/-- One pattern character of the needle against one text character, as compiled
by `re` with `IGNORECASE`, restricted to the regex fragment of literal
characters and the `.` wildcard: `.` matches any character except a newline, a
literal matches itself case-insensitively.  The semantics of the other regex
metacharacters (`isReMeta` below) is not modelled here; no theorem in this file
quantifies over a needle containing one of them — the claim theorem for the
filters assumes the needle is metacharacter-free, and the counterexample uses
only `.`. -/
def reCharMatch (p c : Char) : Bool :=
  if p == '.' then c != '\n' else toLowerAscii p == toLowerAscii c

/-- The pattern matches at the current position (a match of the whole pattern
starting here). -/
def reMatchHere : List Char → List Char → Bool
  | [], _ => true
  | _ :: _, [] => false
  | p :: ps, c :: cs => reCharMatch p c && reMatchHere ps cs

/-- `re.search` with `IGNORECASE`, which is what `Series.str.contains(pat,
case=False, na=False)` evaluates per entry: pandas compiles the needle as a
regular expression (`regex=True` is the default), it is not a literal
substring.  Modelled for needles drawn from the regex fragment of literal
characters and the `.` wildcard; needles containing any other metacharacter
are outside this model, and every theorem below that compares the program's
filters with plain substring search requires the needle to contain no regex
metacharacter at all, a fragment on which the compiled needle is a literal
sequence and this model is exact. -/
def reSearch (pat : List Char) : List Char → Bool
  | [] => reMatchHere pat []
  | c :: cs => reMatchHere pat (c :: cs) || reSearch pat cs

/-- Case-insensitive literal comparison at the current position. -/
def ciHere : List Char → List Char → Bool
  | [], _ => true
  | _ :: _, [] => false
  | p :: ps, c :: cs => (toLowerAscii p == toLowerAscii c) && ciHere ps cs

/-- Modelled from the spec: plain case-insensitive substring containment,
the rule the spec's words give for `byType` and `byTitleSearch`. -/
def specContainsCI (pat : List Char) : List Char → Bool
  | [] => ciHere pat []
  | c :: cs => ciHere pat (c :: cs) || specContainsCI pat cs

/-- The regex metacharacters of Python `re` (the two brace characters are
written by code).  A pattern containing none of them compiles to a plain
literal sequence, so `re.search` on such a needle is literal case-insensitive
substring search. -/
def isReMeta (c : Char) : Bool :=
  c == '.' || c == '^' || c == '$' || c == '*' || c == '+' || c == '?' ||
  c == '\x7b' || c == '\x7d' || c == '[' || c == ']' || c == '\\' ||
  c == '|' || c == '(' || c == ')'

/-- `get_tunes_by_book`: keep rows whose `book_number` equals the query. -/
def get_tunes_by_book (df : List Tune) (book_number : Int) : List Tune :=
  df.filter (fun t => t.book_number == book_number)

/-- `get_tunes_by_type`: `df[df['rhythm_type'].str.contains(tune_type,
case=False, na=False)]`.  Rows produced by the parser always carry a string
`rhythm_type`, so `na=False` selects nothing away here. -/
def get_tunes_by_type (df : List Tune) (tune_type : List Char) : List Tune :=
  df.filter (fun t => reSearch tune_type t.rhythm_type)

/-- `search_tunes`: the same containment test applied to `title`. -/
def search_tunes (df : List Tune) (search_term : List Char) : List Tune :=
  df.filter (fun t => reSearch search_term t.title)

/-- Modelled from the spec: `byType` as the spec words it, keeping records whose
`rhythmType` contains the needle as a plain case-insensitive substring. -/
def specByType (records : List Tune) (needle : List Char) : List Tune :=
  records.filter (fun t => specContainsCI needle t.rhythm_type)

/-- Modelled from the spec: `byTitleSearch` as the spec words it. -/
def specByTitle (records : List Tune) (needle : List Char) : List Tune :=
  records.filter (fun t => specContainsCI needle t.title)

/-- Numeric value of an ASCII digit. -/
def digitVal (c : Char) : Nat := c.toNat - 48

/-- Digits of a Python integer literal after the first digit: decimal digits
with single underscores allowed between digits, accumulating the value. -/
def parseDigitsGo : List Char → Nat → Option Nat
  | [], acc => some acc
  | '_' :: c :: rest, acc =>
    if c.isDigit then parseDigitsGo rest (acc * 10 + digitVal c) else none
  | c :: rest, acc =>
    if c.isDigit then parseDigitsGo rest (acc * 10 + digitVal c) else none

/-- A nonempty run of decimal digits (with Python's underscore grouping),
consuming the whole input. -/
def parsePyDigits : List Char → Option Nat
  | [] => none
  | c :: rest => if c.isDigit then parseDigitsGo rest (digitVal c) else none

/-- Python `int(s)` on a decimal string: surrounding whitespace is ignored, an
optional single sign precedes the digits; `none` models the `ValueError` raised
on any other input (including the empty string). -/
def pyInt (s : List Char) : Option Int :=
  match strip s with
  | '+' :: rest => (parsePyDigits rest).map (fun n => (n : Int))
  | '-' :: rest => (parsePyDigits rest).map (fun n => -(n : Int))
  | t => (parsePyDigits t).map (fun n => (n : Int))

/-- The `book` branch of `get_filtered_tunes` as a function of the snapshot and
the query text: `elif query_mode == "book" and query_value:` falls through to
`return tunes_df` when the query text is empty; otherwise `int(query_value)` is
attempted and a `ValueError` yields an empty result. -/
def get_filtered_tunes_book (tunes_df : List Tune) (query_value : List Char) :
    List Tune :=
  if query_value.isEmpty then tunes_df
  else
    match pyInt query_value with
    | some n => get_tunes_by_book tunes_df n
    | none => []

/-- The committed, durable contents of the `tunes` table: what any observer of
the store sees. -/
structure TuneDB where
  rows : List Tune
  deriving DecidableEq

/-- A storage fault raised by the underlying store during a write. -/
inductive PersistenceError where
  | storageFault
  deriving DecidableEq

/-- The `cursor.execute` loop of `TuneDatabase.insert_tunes`: each insert adds
one pending row to the connection's open implicit transaction, in order.
`fault` is the index of the `execute` call at which the underlying store
raises, if any; the raise aborts the loop at that point. -/
def insertLoop : List Tune → Option Nat → Except PersistenceError (List Tune)
  | [], _ => Except.ok []
  | _ :: _, some 0 => Except.error PersistenceError.storageFault
  | t :: ts, some (k + 1) => (insertLoop ts (some k)).map (fun l => t :: l)
  | t :: ts, none => (insertLoop ts none).map (fun l => t :: l)

/-- `TuneDatabase.insert_tunes`: run every `execute` inside the implicit
transaction and call `conn.commit()` exactly once, after the loop.  Pending
rows become committed (visible) only at that commit; if an `execute` raises,
the transaction is never committed, the committed table is unchanged, and the
error propagates to the caller. -/
def insert_tunes (db : TuneDB) (tunes : List Tune) (fault : Option Nat) :
    Except PersistenceError TuneDB :=
  match insertLoop tunes fault with
  | Except.error e => Except.error e
  | Except.ok pending => Except.ok ⟨db.rows ++ pending⟩

/-- The committed rows an observer sees after a call to `insert_tunes`: the new
table on success, the untouched original table when the call raised. -/
def visibleRows (db : TuneDB) (tunes : List Tune) (fault : Option Nat) :
    List Tune :=
  match insert_tunes db tunes fault with
  | Except.ok db2 => db2.rows
  | Except.error _ => db.rows

/-- Reading a source file can fail before any text is available. -/
inductive SourceReadError where
  | unreadable
  | undecodable
  deriving DecidableEq

/-- `ABCParser.parse_file` including its `try`/`except`: the whole body runs
under the handler, an `open`/`read` failure is caught, printed, and the (still
empty) list of tunes is returned; parsing itself is a total function of the
text. -/
def parse_file_from_read (r : Except SourceReadError (List Char))
    (book_number : Int) (fname : List Char) : List Tune :=
  match r with
  | Except.error _ => []
  | Except.ok content => parse_file content book_number fname

/-- The accumulation loop of `load_all_abc_files` over a list of files, each
given by its read outcome, book number and base name. -/
def load_files
    (files : List (Except SourceReadError (List Char) × Int × List Char)) :
    List Tune :=
  (files.map (fun x => parse_file_from_read x.1 x.2.1 x.2.2)).flatten

/-- A concrete stored record used by concrete instances below. -/
def tuneAxc : Tune :=
  ⟨"Some Tune".data, "axc".data, "G".data, "Anon".data, none, 1,
    "f.abc".data, "T:Some Tune".data⟩

/-! Helper lemmas about the boundary scan. -/

theorem takeWhile_len_le (p : Char → Bool) (l : List Char) :
    (l.takeWhile p).length ≤ l.length := by
  induction l with
  | nil => simp
  | cons c rest ih =>
    by_cases h : p c
    · simp only [List.takeWhile_cons, h, if_true, List.length_cons]
      omega
    · simp [List.takeWhile_cons, h]

theorem matchBoundary_bounds {s : List Char} {l : Nat}
    (h : matchBoundaryAt s = some l) : 3 ≤ l ∧ l ≤ s.length := by
  match s with
  | [] => simp [matchBoundaryAt] at h
  | [c] => simp [matchBoundaryAt] at h
  | c :: d :: rest =>
    simp only [matchBoundaryAt] at h
    by_cases hcd : (c == 'X' && d == ':') = true
    · rw [if_pos hcd] at h
      by_cases hds : (((rest.dropWhile isPySpace).takeWhile Char.isDigit).isEmpty) = true
      · rw [if_pos hds] at h
        exact absurd h (by simp)
      · rw [if_neg hds] at h
        have hl := (Option.some.inj h).symm
        have h1 : (rest.takeWhile isPySpace).length
            + (rest.dropWhile isPySpace).length = rest.length := by
          rw [← List.length_append, List.takeWhile_append_dropWhile]
        have h2 := takeWhile_len_le Char.isDigit (rest.dropWhile isPySpace)
        have h3 : ((rest.dropWhile isPySpace).takeWhile Char.isDigit) ≠ [] := by
          simpa using hds
        have h4 : 0 < ((rest.dropWhile isPySpace).takeWhile Char.isDigit).length :=
          List.length_pos.mpr h3
        simp only [List.length_cons]
        omega
    · rw [if_neg hcd] at h
      exact absurd h (by simp)

theorem findMatch_bounds : ∀ (s : List Char) (ls : Bool) (p l : Nat),
    findMatch s ls = some (p, l) → p + l ≤ s.length ∧ 3 ≤ l := by
  intro s
  induction s with
  | nil => intro ls p l h; simp [findMatch] at h
  | cons c rest ih =>
    intro ls p l h
    simp only [findMatch] at h
    cases hb : (if ls then matchBoundaryAt (c :: rest) else none) with
    | some l' =>
      rw [hb] at h
      have hmb : matchBoundaryAt (c :: rest) = some l' := by
        cases ls with
        | true => simpa using hb
        | false => simp at hb
      obtain ⟨h3, hle⟩ := matchBoundary_bounds hmb
      simp only [Option.some.injEq, Prod.mk.injEq] at h
      obtain ⟨h1, h2⟩ := h
      constructor <;> omega
    | none =>
      rw [hb] at h
      cases hr : findMatch rest (c == '\n') with
      | none => rw [hr] at h; simp at h
      | some q =>
        rw [hr] at h
        simp only [Option.map_some', Option.some.injEq, Prod.mk.injEq] at h
        obtain ⟨h1, h2⟩ := h
        obtain ⟨hle, h3⟩ := ih (c == '\n') q.1 q.2 hr
        simp only [List.length_cons]
        constructor <;> omega

theorem findMatch_drop : ∀ (s : List Char) (ls : Bool) (p l : Nat),
    findMatch s ls = some (p, l) → matchBoundaryAt (s.drop p) = some l := by
  intro s
  induction s with
  | nil => intro ls p l h; simp [findMatch] at h
  | cons c rest ih =>
    intro ls p l h
    simp only [findMatch] at h
    cases hb : (if ls then matchBoundaryAt (c :: rest) else none) with
    | some l' =>
      rw [hb] at h
      have hmb : matchBoundaryAt (c :: rest) = some l' := by
        cases ls with
        | true => simpa using hb
        | false => simp at hb
      simp only [Option.some.injEq, Prod.mk.injEq] at h
      obtain ⟨h1, h2⟩ := h
      rw [← h1, List.drop_zero, hmb, h2]
    | none =>
      rw [hb] at h
      cases hr : findMatch rest (c == '\n') with
      | none => rw [hr] at h; simp at h
      | some q =>
        rw [hr] at h
        simp only [Option.map_some', Option.some.injEq, Prod.mk.injEq] at h
        obtain ⟨h1, h2⟩ := h
        have := ih (c == '\n') q.1 q.2 hr
        rw [← h1, List.drop_succ_cons, this, h2]

theorem findMatch_of_boundary {s : List Char} {l : Nat}
    (h : matchBoundaryAt s = some l) : findMatch s true = some (0, l) := by
  match s with
  | [] => simp [matchBoundaryAt] at h
  | c :: rest => simp [findMatch, h]

theorem splitXF_none {s : List Char} {ls : Bool} (h : findMatch s ls = none) :
    ∀ n, splitXF n s ls = [s]
  | 0 => rfl
  | n + 1 => by simp [splitXF, h]

theorem splitXF_congr : ∀ (n m : Nat) (s : List Char) (ls : Bool),
    s.length ≤ n → s.length ≤ m → splitXF n s ls = splitXF m s ls := by
  intro n
  induction n with
  | zero =>
    intro m s ls hn hm
    have hs : s = [] := List.length_eq_zero.mp (Nat.le_zero.mp hn)
    subst hs
    have hf : findMatch [] ls = none := rfl
    rw [splitXF_none hf, splitXF_none hf]
  | succ n ih =>
    intro m s ls hn hm
    cases hf : findMatch s ls with
    | none => rw [splitXF_none hf, splitXF_none hf]
    | some q =>
      obtain ⟨p, l⟩ := q
      obtain ⟨hpl, hl3⟩ := findMatch_bounds s ls p l hf
      cases m with
      | zero => exfalso; omega
      | succ m' =>
        simp only [splitXF, hf]
        congr 1
        apply ih
        · simp only [List.length_drop]; omega
        · simp only [List.length_drop]; omega

theorem splitXF_length : ∀ (n : Nat) (s : List Char) (ls : Bool),
    (splitXF n s ls).length = countXF n s ls + 1 := by
  intro n
  induction n with
  | zero => intro s ls; rfl
  | succ n ih =>
    intro s ls
    cases hf : findMatch s ls with
    | none => simp [splitXF, countXF, hf]
    | some q =>
      obtain ⟨p, l⟩ := q
      simp [splitXF, countXF, hf, ih]

/-! Helper lemmas about lines and header tags. -/

theorem splitLines_ne_nil (s : List Char) : splitLines s ≠ [] := by
  cases s with
  | nil => simp [splitLines]
  | cons c rest =>
    simp only [splitLines]
    by_cases h : (c == '\n') = true
    · simp [h]
    · rw [if_neg h]
      cases splitLines rest <;> simp

theorem splitLines_append : ∀ (xs ys : List Char),
    splitLines (xs ++ '\n' :: ys) = splitLines xs ++ splitLines ys := by
  intro xs ys
  induction xs with
  | nil => simp [splitLines]
  | cons c xs ih =>
    simp only [List.cons_append, splitLines]
    by_cases h : (c == '\n') = true
    · simp [h, ih]
    · rw [if_neg h, if_neg h]
      simp only [List.append_eq]
      rw [ih]
      cases hx : splitLines xs with
      | nil => exact absurd hx (splitLines_ne_nil xs)
      | cons l ls => simp

theorem firstTag_append : ∀ (tag : Char) (ls1 ls2 : List (List Char))
    (v : List Char), firstTag tag ls1 = some v →
    firstTag tag (ls1 ++ ls2) = some v := by
  intro tag ls1
  induction ls1 with
  | nil => intro ls2 v h; simp [firstTag] at h
  | cons l ls ih =>
    intro ls2 v h
    simp only [firstTag] at h
    simp only [List.cons_append, firstTag]
    cases ht : tagValue tag l with
    | some w => rw [ht] at h; exact h
    | none => rw [ht] at h; exact ih ls2 v h

theorem findTag_append {tag : Char} {block : List Char} (rest : List Char)
    {v : List Char} (h : findTag tag block = some v) :
    findTag tag (block ++ '\n' :: rest) = some v := by
  unfold findTag at h ⊢
  rw [splitLines_append]
  exact firstTag_append tag _ _ v h

theorem parseBlock_content {block : List Char} {b : Int} {f : List Char}
    {t : Tune} (h : parseBlock block b f = some t) : t.content = strip block := by
  unfold parseBlock at h
  cases hT : findTag 'T' block with
  | none => rw [hT] at h; exact absurd h (by simp)
  | some tv =>
    rw [hT] at h
    have h2 := Option.some.inj h
    subst h2
    rfl

theorem parseBlock_fields {block : List Char} {b : Int} {f : List Char}
    {t : Tune} (h : parseBlock block b f = some t) :
    (∀ v, findTag 'T' block = some v → t.title = strip v)
    ∧ (∀ v, findTag 'R' block = some v → t.rhythm_type = strip v)
    ∧ (∀ v, findTag 'K' block = some v → t.key = strip v)
    ∧ (∀ v, findTag 'C' block = some v → t.composer = strip v)
    ∧ (∀ v, findTag 'S' block = some v → t.source = some (strip v)) := by
  unfold parseBlock at h
  cases hT : findTag 'T' block with
  | none => rw [hT] at h; exact absurd h (by simp)
  | some tv =>
    rw [hT] at h
    have he := Option.some.inj h
    subst he
    refine ⟨?_, ?_, ?_, ?_, ?_⟩
    · intro v hv
      rw [Option.some.inj hv]
    · intro v hv
      rw [hv]
    · intro v hv
      rw [hv]
    · intro v hv
      rw [hv]
    · intro v hv
      rw [hv]
      rfl

theorem filterMap_map_sublist {α β γ : Type} (l : List α) (f : α → Option β)
    (g : β → γ) (h : α → γ) (hf : ∀ a b, f a = some b → g b = h a) :
    List.Sublist ((l.filterMap f).map g) (l.map h) := by
  induction l with
  | nil => simp
  | cons a l ih =>
    cases hfa : f a with
    | none =>
      simp only [List.filterMap_cons, hfa, List.map_cons]
      exact List.Sublist.cons (h a) ih
    | some b =>
      simp only [List.filterMap_cons, hfa, List.map_cons]
      rw [hf a b hfa]
      exact List.Sublist.cons₂ (h a) ih

theorem insertLoop_ok : ∀ (ts : List Tune) (fl : Option Nat) (r : List Tune),
    insertLoop ts fl = Except.ok r → r = ts := by
  intro ts
  induction ts with
  | nil =>
    intro fl r h
    simp only [insertLoop, Except.ok.injEq] at h
    exact h.symm
  | cons t ts ih =>
    intro fl r h
    match fl with
    | some 0 => simp [insertLoop] at h
    | some (k + 1) =>
      simp only [insertLoop] at h
      cases hr : insertLoop ts (some k) with
      | error e => rw [hr] at h; simp [Except.map] at h
      | ok r2 =>
        rw [hr] at h
        simp only [Except.map, Except.ok.injEq] at h
        rw [← h, ih (some k) r2 hr]
    | none =>
      simp only [insertLoop] at h
      cases hr : insertLoop ts none with
      | error e => rw [hr] at h; simp [Except.map] at h
      | ok r2 =>
        rw [hr] at h
        simp only [Except.map, Except.ok.injEq] at h
        rw [← h, ih none r2 hr]

/-! Helper lemmas about the needle matching of the filter functions. -/

theorem reCharMatch_ci {p : Char} (hp : p ≠ '.') (c : Char) :
    reCharMatch p c = (toLowerAscii p == toLowerAscii c) := by
  unfold reCharMatch
  rw [if_neg (by simp [hp])]

theorem reMatchHere_ci : ∀ (pat s : List Char), '.' ∉ pat →
    reMatchHere pat s = ciHere pat s := by
  intro pat
  induction pat with
  | nil => intro s h; cases s <;> rfl
  | cons p ps ih =>
    intro s h
    have hp : p ≠ '.' := by
      intro hc
      exact h (by rw [hc]; exact List.mem_cons_self _ _)
    have hps : '.' ∉ ps := fun hc => h (List.mem_cons_of_mem _ hc)
    cases s with
    | nil => rfl
    | cons c cs =>
      simp only [reMatchHere, ciHere, reCharMatch_ci hp, ih cs hps]

theorem reSearch_ci : ∀ (s pat : List Char), '.' ∉ pat →
    reSearch pat s = specContainsCI pat s := by
  intro s
  induction s with
  | nil =>
    intro pat h
    simp only [reSearch, specContainsCI, reMatchHere_ci pat [] h]
  | cons c cs ih =>
    intro pat h
    simp only [reSearch, specContainsCI, reMatchHere_ci pat (c :: cs) h, ih pat h]

theorem ciHere_fold : ∀ (pat1 pat2 s : List Char),
    pat1.map toLowerAscii = pat2.map toLowerAscii →
    ciHere pat1 s = ciHere pat2 s := by
  intro pat1
  induction pat1 with
  | nil =>
    intro pat2 s h
    cases pat2 with
    | nil => rfl
    | cons q qs => simp at h
  | cons p ps ih =>
    intro pat2 s h
    cases pat2 with
    | nil => simp at h
    | cons q qs =>
      simp only [List.map_cons, List.cons.injEq] at h
      obtain ⟨h1, h2⟩ := h
      cases s with
      | nil => rfl
      | cons c cs => simp only [ciHere, h1, ih qs cs h2]

theorem ciSearch_fold : ∀ (s pat1 pat2 : List Char),
    pat1.map toLowerAscii = pat2.map toLowerAscii →
    specContainsCI pat1 s = specContainsCI pat2 s := by
  intro s
  induction s with
  | nil => intro pat1 pat2 h; simp only [specContainsCI, ciHere_fold pat1 pat2 [] h]
  | cons c cs ih =>
    intro pat1 pat2 h
    simp only [specContainsCI, ciHere_fold pat1 pat2 (c :: cs) h, ih pat1 pat2 h]

theorem filter_ext {α : Type} (l : List α) (p q : α → Bool)
    (h : ∀ a : α, p a = q a) : l.filter p = l.filter q := by
  induction l with
  | nil => rfl
  | cons a l ih => simp only [List.filter_cons, h a, ih]

theorem reSearch_nil_true : ∀ s : List Char, reSearch [] s = true := by
  intro s
  cases s with
  | nil => rfl
  | cons c cs => simp [reSearch, reMatchHere]

/-! Claim theorems. -/

/-- C1, counterexample: the document `X:1\nT:   \nGFG` has a `T:` line whose
remainder is three spaces; `^T:(.+)$` matches it, `.strip()` empties it, and
the block still becomes a record — so parse produces (and the store receives)
a record whose title is the empty string, contradicting the claim that the
title is never empty or whitespace-only. -/
theorem title_whitespace_only_counterexample :
    (parse_file ("X:1\nT:   \nGFG".data) 1 ("a.abc".data)).map Tune.title
      = [[]] := by decide

/-- C1 (amended): for every block that becomes a record, the record's title is
the trimmed remainder of the block's first `T:` line whose remainder is
nonempty; the raw remainder has at least one character, but when it is
whitespace-only the stored title is the empty string. -/
theorem title_eq_trimmed_first_T_line (block v : List Char) (b : Int)
    (f : List Char) (t : Tune) (ht : parseBlock block b f = some t)
    (hv : findTag 'T' block = some v) : t.title = strip v := by
  unfold parseBlock at ht
  rw [hv] at ht
  have h2 := Option.some.inj ht
  subst h2
  rfl

/-- C1 witness: the theorem applied to the block `T: Asturias \nGFG`. -/
theorem title_eq_trimmed_first_T_line_witness :
    Tune.title ⟨"Asturias".data, unknownStr, unknownStr, unknownStr, none, 3,
        "w.abc".data, "T: Asturias \nGFG".data⟩
      = strip (" Asturias ".data) :=
  title_eq_trimmed_first_T_line ("T: Asturias \nGFG".data) (" Asturias ".data)
    3 ("w.abc".data) _ (by decide) (by decide)

/-- C2, counterexample: `str.contains` compiles the needle as a regular
expression, so the needle `a.c` keeps a record whose `rhythm_type` is `axc`,
although `a.c` is not a plain case-insensitive substring of `axc`. -/
theorem type_filter_regex_counterexample :
    get_tunes_by_type [tuneAxc] ("a.c".data) = [tuneAxc]
    ∧ specByType [tuneAxc] ("a.c".data) = [] := by decide

/-- C2 (amended): the needle of `byType`/`byTitleSearch` is interpreted as a
case-insensitive regular expression, not a plain substring; for needles
containing no regex metacharacter (no character satisfying `isReMeta`, the
fragment on which a compiled pattern is a literal sequence) the two rules
coincide, the empty needle keeps every record, and `byType(records, "jig")`
equals `byType(records, "JIG")`. -/
theorem type_filter_substring_when_literal (records : List Tune)
    (needle : List Char) (hmeta : ∀ c ∈ needle, isReMeta c = false) :
    get_tunes_by_type records needle = specByType records needle
    ∧ search_tunes records needle = specByTitle records needle
    ∧ get_tunes_by_type records [] = records
    ∧ get_tunes_by_type records ("jig".data)
        = get_tunes_by_type records ("JIG".data) := by
  have hdot : '.' ∉ needle := by
    intro hc
    have h2 := hmeta '.' hc
    simp [isReMeta] at h2
  refine ⟨?_, ?_, ?_, ?_⟩
  · exact filter_ext records _ _ (fun t => reSearch_ci t.rhythm_type needle hdot)
  · exact filter_ext records _ _ (fun t => reSearch_ci t.title needle hdot)
  · calc get_tunes_by_type records []
        = records.filter (fun _ => true) :=
          filter_ext records _ _ (fun t => reSearch_nil_true t.rhythm_type)
      _ = records := List.filter_true records
  · have h1 : '.' ∉ ("jig".data : List Char) := by decide
    have h2 : '.' ∉ ("JIG".data : List Char) := by decide
    have hmap : ("jig".data : List Char).map toLowerAscii
        = ("JIG".data : List Char).map toLowerAscii := by decide
    calc get_tunes_by_type records ("jig".data)
        = specByType records ("jig".data) :=
          filter_ext records _ _ (fun t => reSearch_ci t.rhythm_type _ h1)
      _ = specByType records ("JIG".data) :=
          filter_ext records _ _ (fun t => ciSearch_fold t.rhythm_type _ _ hmap)
      _ = get_tunes_by_type records ("JIG".data) :=
          (filter_ext records _ _ (fun t => reSearch_ci t.rhythm_type _ h2)).symm

/-- C2 witness: the theorem applied to a one-record collection and the
metacharacter-free needle `jig`. -/
theorem type_filter_substring_when_literal_witness :
    get_tunes_by_type [tuneAxc] ("jig".data) = specByType [tuneAxc] ("jig".data)
    ∧ search_tunes [tuneAxc] ("jig".data) = specByTitle [tuneAxc] ("jig".data)
    ∧ get_tunes_by_type [tuneAxc] [] = [tuneAxc]
    ∧ get_tunes_by_type [tuneAxc] ("jig".data)
        = get_tunes_by_type [tuneAxc] ("JIG".data) :=
  type_filter_substring_when_literal [tuneAxc] ("jig".data) (by decide)

/-- C3, counterexample: parsing `X:1\nT:A\nGFG` yields one record whose
`content` is `T:A\nGFG`; it contains no `X` at all, so the `X:1` boundary line
that opened the block is not preserved inside `rawContent`. -/
theorem rawContent_missing_boundary_counterexample :
    (parse_file ("X:1\nT:A\nGFG".data) 1 ("f.abc".data)).map Tune.content
      = ["T:A\nGFG".data]
    ∧ 'X' ∉ ("T:A\nGFG".data : List Char) := by decide

/-- C3 (amended): `rawContent` equals the block's text trimmed of leading and
trailing whitespace, where the block is the text strictly after the matched
`X:` boundary (the split removes the matched boundary text); the later header
lines are preserved verbatim inside it. -/
theorem rawContent_eq_trimmed_block (block : List Char) (b : Int)
    (f : List Char) (t : Tune) (h : parseBlock block b f = some t) :
    t.content = strip block :=
  parseBlock_content h

/-- C3 witness: the theorem applied to the block `\nT:B\n GFG `. -/
theorem rawContent_eq_trimmed_block_witness :
    Tune.content ⟨"B".data, unknownStr, unknownStr, unknownStr, none, 2,
        "c3.abc".data, "T:B\n GFG".data⟩
      = strip ("\nT:B\n GFG ".data) :=
  rawContent_eq_trimmed_block ("\nT:B\n GFG ".data) 2 ("c3.abc".data) _
    (by decide)

/-- C4 (confirmed): `insert_tunes` is atomic with respect to the call: for any
committed store, batch and fault point, either the visible store afterwards is
the old rows followed by the whole batch, or the call surfaces a
`PersistenceError` and the visible store is unchanged; no partial prefix of
the batch is ever observable. -/
theorem insert_tunes_atomic (db : TuneDB) (tunes : List Tune)
    (fault : Option Nat) :
    visibleRows db tunes fault = db.rows ++ tunes
    ∨ (insert_tunes db tunes fault = Except.error PersistenceError.storageFault
       ∧ visibleRows db tunes fault = db.rows) := by
  cases hl : insertLoop tunes fault with
  | error e =>
    right
    cases e
    constructor
    · simp [insert_tunes, hl]
    · simp [visibleRows, insert_tunes, hl]
  | ok pending =>
    left
    have h2 := insertLoop_ok tunes fault pending hl
    subst h2
    simp [visibleRows, insert_tunes, hl]

/-- C5 (confirmed): a document in which the boundary regex `^X:\s*\d+` has no
match parses to the empty sequence, and for any document the text preceding
the first boundary match contributes no record: parsing the document equals
parsing its suffix that starts at the first boundary. -/
theorem parse_no_boundary_and_front_matter (d : List Char) (b : Int)
    (f : List Char) :
    (findMatch d true = none → parse_file d b f = [])
    ∧ (∀ p l, findMatch d true = some (p, l) →
        parse_file d b f = parse_file (List.drop p d) b f) := by
  constructor
  · intro h
    unfold parse_file tuneBlocks
    rw [splitXF_none h]
    rfl
  · intro p l hm
    obtain ⟨hpl, hl3⟩ := findMatch_bounds d true p l hm
    have hd := findMatch_drop d true p l hm
    have hfs : findMatch (List.drop p d) true = some (0, l) :=
      findMatch_of_boundary hd
    unfold parse_file tuneBlocks
    obtain ⟨n, hn⟩ : ∃ n, d.length = n + 1 := ⟨d.length - 1, by omega⟩
    obtain ⟨m, hm2⟩ : ∃ m, (List.drop p d).length = m + 1 := by
      refine ⟨(List.drop p d).length - 1, ?_⟩
      simp only [List.length_drop]
      omega
    have hm3 := hm2
    simp only [List.length_drop] at hm3
    rw [hn, hm2]
    simp only [splitXF, hm, hfs]
    simp only [List.drop_succ_cons, List.drop_zero]
    have hdd : List.drop (0 + l) (List.drop p d) = List.drop (p + l) d := by
      rw [Nat.zero_add, List.drop_drop, Nat.add_comm]
    rw [hdd]
    congr 1
    apply splitXF_congr
    · simp only [List.length_drop]; omega
    · simp only [List.length_drop]; omega

/-- C5 witness: a document with no boundary line parses to nothing, and the
front matter `pre\n` of a document is discarded. -/
theorem parse_no_boundary_and_front_matter_witness :
    parse_file ("hello\nworld".data) 1 ("f.abc".data) = []
    ∧ parse_file ("pre\nX:1\nT:A\nG".data) 1 ("f.abc".data)
        = parse_file (List.drop 4 ("pre\nX:1\nT:A\nG".data)) 1 ("f.abc".data) :=
  ⟨(parse_no_boundary_and_front_matter ("hello\nworld".data) 1
      ("f.abc".data)).1 (by decide),
   (parse_no_boundary_and_front_matter ("pre\nX:1\nT:A\nG".data) 1
      ("f.abc".data)).2 4 3 (by decide)⟩

/-- C6 (confirmed): a block with a `T:` match but no `R:`, `K:`, `C:` or `S:`
match becomes a record with `rhythm_type`, `key` and `composer` all equal to
the sentinel `"Unknown"` and `source` absent — no sentinel is substituted for
`source`. -/
theorem parse_default_fields (block tv : List Char) (b : Int) (f : List Char)
    (hT : findTag 'T' block = some tv) (hR : findTag 'R' block = none)
    (hK : findTag 'K' block = none) (hC : findTag 'C' block = none)
    (hS : findTag 'S' block = none) :
    parseBlock block b f
      = some ⟨strip tv, unknownStr, unknownStr, unknownStr, none, b, f,
          strip block⟩ := by
  unfold parseBlock
  rw [hT, hR, hK, hC, hS]
  rfl

/-- C6 witness: the theorem applied to the block `T:Reel A\nGAB cde`. -/
theorem parse_default_fields_witness :
    parseBlock ("T:Reel A\nGAB cde".data) 1 ("x.abc".data)
      = some ⟨strip ("Reel A".data), unknownStr, unknownStr, unknownStr, none,
          1, "x.abc".data, strip ("T:Reel A\nGAB cde".data)⟩ :=
  parse_default_fields ("T:Reel A\nGAB cde".data) ("Reel A".data) 1
    ("x.abc".data) (by decide) (by decide) (by decide) (by decide) (by decide)

/-- C7, counterexample: the guard `query_mode == "book" and query_value` makes
the empty query string — a non-numeric input, `int("")` raises — fall through
to returning the whole collection, not the empty result the claim requires for
every invalid input. -/
theorem book_query_empty_value_counterexample :
    get_filtered_tunes_book [tuneAxc] [] = [tuneAxc] ∧ pyInt [] = none := by
  decide

/-- C7 (amended): every nonempty collection-number query input on which
`int()` fails yields an empty result set, not an error; the empty input is
treated as no filter and returns the whole collection. -/
theorem book_query_invalid_input_empty (df : List Tune) (q : List Char)
    (hne : q ≠ []) (hinv : pyInt q = none) :
    get_filtered_tunes_book df q = [] ∧ get_filtered_tunes_book df [] = df := by
  constructor
  · cases q with
    | nil => exact absurd rfl hne
    | cons c cs => simp [get_filtered_tunes_book, hinv]
  · rfl

/-- C7 witness: the theorem applied to the non-numeric query `abc`. -/
theorem book_query_invalid_input_empty_witness :
    get_filtered_tunes_book [tuneAxc] ("abc".data) = []
    ∧ get_filtered_tunes_book [tuneAxc] [] = [tuneAxc] :=
  book_query_invalid_input_empty [tuneAxc] ("abc".data) (by decide) (by decide)

/-- C8 (confirmed): a file whose read fails contributes the empty sequence and
no exception — in the accumulation over files an unreadable file disappears
without disturbing its siblings — and parsing itself is total: a block with no
`T:` match is skipped, producing no record and no error. -/
theorem parse_read_failure_yields_empty (e : SourceReadError) (b : Int)
    (f : List Char)
    (pre post : List (Except SourceReadError (List Char) × Int × List Char)) :
    parse_file_from_read (Except.error e) b f = []
    ∧ load_files (pre ++ (Except.error e, b, f) :: post)
        = load_files pre ++ load_files post
    ∧ (∀ block : List Char, findTag 'T' block = none →
        parseBlock block b f = none) := by
  refine ⟨rfl, ?_, ?_⟩
  · simp [load_files, parse_file_from_read]
  · intro block hb
    unfold parseBlock
    rw [hb]

/-- C8 witness: an unreadable file yields no records, alone or in a corpus,
and a title-less block is skipped. -/
theorem parse_read_failure_yields_empty_witness :
    parse_file_from_read (Except.error SourceReadError.unreadable) 1
        ("g.abc".data) = []
    ∧ load_files [(Except.error SourceReadError.unreadable, 1, "g.abc".data)]
        = []
    ∧ parseBlock ("K:G\nGFG".data) 1 ("g.abc".data) = none := by
  have h := parse_read_failure_yields_empty SourceReadError.unreadable 1
    ("g.abc".data) [] []
  exact ⟨h.1, by simpa using h.2.1, h.2.2 ("K:G\nGFG".data) (by decide)⟩

/-- C9 (confirmed): per tag, only the first matching line determines the
field.  For every record parsed from a block that splits as a prefix, a
newline and later lines, each of the five tags whose first matching line lies
in the prefix gives its field that line's trimmed value — the later lines,
which may match that tag any number of times, have no effect.  Each tag is
covered independently, with no assumption about the other four. -/
theorem first_tag_line_wins (block rest : List Char) (b : Int) (f : List Char)
    (t : Tune) (ht : parseBlock (block ++ '\n' :: rest) b f = some t) :
    (∀ tv, findTag 'T' block = some tv → t.title = strip tv)
    ∧ (∀ rv, findTag 'R' block = some rv → t.rhythm_type = strip rv)
    ∧ (∀ kv, findTag 'K' block = some kv → t.key = strip kv)
    ∧ (∀ cv, findTag 'C' block = some cv → t.composer = strip cv)
    ∧ (∀ sv, findTag 'S' block = some sv → t.source = some (strip sv)) := by
  obtain ⟨h1, h2, h3, h4, h5⟩ := parseBlock_fields ht
  refine ⟨?_, ?_, ?_, ?_, ?_⟩
  · intro tv hT
    exact h1 tv (findTag_append rest hT)
  · intro rv hR
    exact h2 rv (findTag_append rest hR)
  · intro kv hK
    exact h3 kv (findTag_append rest hK)
  · intro cv hC
    exact h4 cv (findTag_append rest hC)
  · intro sv hS
    exact h5 sv (findTag_append rest hS)

/-- C9 witness: a block with two `T:` lines and two `R:` lines and no `K:`,
`C:` or `S:` line keeps the first `T:` value and the first `R:` value. -/
theorem first_tag_line_wins_witness :
    Tune.title ⟨"A".data, "Jig".data, unknownStr, unknownStr, none, 5,
        "w9.abc".data, "T:A\nR:Jig\nT:B\nR:Reel\nGFG".data⟩ = strip ("A".data)
    ∧ Tune.rhythm_type ⟨"A".data, "Jig".data, unknownStr, unknownStr, none, 5,
        "w9.abc".data, "T:A\nR:Jig\nT:B\nR:Reel\nGFG".data⟩
        = strip ("Jig".data) := by
  have h := first_tag_line_wins ("T:A\nR:Jig".data) ("T:B\nR:Reel\nGFG".data)
    5 ("w9.abc".data)
    ⟨"A".data, "Jig".data, unknownStr, unknownStr, none, 5, "w9.abc".data,
      "T:A\nR:Jig\nT:B\nR:Reel\nGFG".data⟩ (by decide)
  exact ⟨h.1 ("A".data) (by decide), h.2.1 ("Jig".data) (by decide)⟩

/-- C10 (confirmed): the records of a parse appear in block order — their
contents form a sublist of the stripped block texts in document order, so each
block contributes at most one record — and the number of records never exceeds
the number of boundary lines of the document. -/
theorem parse_order_and_count (d : List Char) (b : Int) (f : List Char) :
    List.Sublist ((parse_file d b f).map Tune.content)
        (((tuneBlocks d).drop 1).map strip)
    ∧ (parse_file d b f).length ≤ countBoundaries d := by
  constructor
  · unfold parse_file
    exact filterMap_map_sublist _ _ _ _ (fun bl t h => parseBlock_content h)
  · unfold parse_file countBoundaries
    have h1 := List.length_filterMap_le (fun bl => parseBlock bl b f)
      ((tuneBlocks d).drop 1)
    have h2 : ((tuneBlocks d).drop 1).length = countXF d.length d true := by
      unfold tuneBlocks
      rw [List.length_drop, splitXF_length]
      omega
    omega
